import Mathlib

/-!
Shallow embedding of `src/utils/filterFormatter.ts` (todoist-mcp-server).

Strings are modelled as `List Char`; JavaScript string operations
(`toLowerCase`, `trim`, `includes`, `replace`-first-occurrence, `split`,
`join`, `startsWith`, `Set`-based dedup) are embedded as executable list
functions.  JavaScript's `\w`/`\s` character classes and `toLowerCase`
are embedded at ASCII fidelity.
-/

set_option maxRecDepth 100000

namespace FilterFormatter

/-- ASCII fragment of JavaScript `String.prototype.toLowerCase`. -/
def lowerChar (c : Char) : Char :=
  if 'A' ≤ c ∧ c ≤ 'Z' then Char.ofNat (c.toNat + 32) else c

/-- ASCII fragment of the JavaScript whitespace class `\s` (also used by
`String.prototype.trim`): space, tab, LF, VT, FF, CR. -/
def isSpaceJS (c : Char) : Bool :=
  c == ' ' || c == '\t' || c == '\n' || c == Char.ofNat 11 || c == Char.ofNat 12 || c == '\r'

/-- JavaScript word-character class `\w` = `[A-Za-z0-9_]`. -/
def isWordChar (c : Char) : Bool :=
  ('a' ≤ c && c ≤ 'z') || ('A' ≤ c && c ≤ 'Z') || ('0' ≤ c && c ≤ '9') || c == '_'

/-- JavaScript `String.prototype.trim` (ASCII whitespace). -/
def trimJS (l : List Char) : List Char :=
  ((l.dropWhile isSpaceJS).reverse.dropWhile isSpaceJS).reverse

/-- JavaScript `haystack.includes(needle)`: `needle` occurs as a contiguous
substring of `haystack`. -/
def containsList (hay needle : List Char) : Bool :=
  match hay with
  | [] => needle = []
  | _ :: t => needle.isPrefixOf hay || containsList t needle

/-- JavaScript `haystack.replace(needle, '')` for a plain-string `needle`:
remove the first occurrence (no change when absent). -/
def replaceFirst : List Char → List Char → List Char
  | [], _ => []
  | c :: t, needle =>
    if needle.isPrefixOf (c :: t) then (c :: t).drop needle.length
    else c :: replaceFirst t needle

/-- Accumulator for `wordsOf`; `cur` holds the current word reversed. -/
def wordsOfAux : List Char → List Char → List (List Char)
  | cur, [] => if cur = [] then [] else [cur.reverse]
  | cur, c :: t =>
    if isSpaceJS c then
      if cur = [] then wordsOfAux [] t else cur.reverse :: wordsOfAux [] t
    else wordsOfAux (c :: cur) t

/-- JavaScript `s.split(/\s+/)` followed by dropping empty pieces (the
source filters out falsy words right after splitting). -/
def wordsOf (l : List Char) : List (List Char) := wordsOfAux [] l

/-- JavaScript `Array.prototype.join(' ')`. -/
def joinSpace : List (List Char) → List Char
  | [] => []
  | [w] => w
  | w :: ws => w ++ ' ' :: joinSpace ws

/-- JavaScript `Array.prototype.join(' & ')`. -/
def joinAmp : List (List Char) → List Char
  | [] => []
  | [w] => w
  | w :: ws => w ++ (' ' :: '&' :: ' ' :: joinAmp ws)

/-- Walk the list keeping elements not yet `seen`, in order. -/
def dedupFirstAux (seen : List (List Char)) : List (List Char) → List (List Char)
  | [] => []
  | x :: t => if x ∈ seen then dedupFirstAux seen t
              else x :: dedupFirstAux (x :: seen) t

/-- JavaScript `[...new Set(xs)]`: keep the first occurrence of each
element, in insertion order. -/
def dedupFirst (l : List (List Char)) : List (List Char) := dedupFirstAux [] l

/-- Stable descending insertion (by phrase length) into an already sorted
list: the new element goes after every earlier element of greater-or-equal
length.  This is the behaviour of the ES2019+ stable
`Array.prototype.sort((a, b) => b.phrase.length - a.phrase.length)`. -/
def insertDesc (x : List Char × List Char) :
    List (List Char × List Char) → List (List Char × List Char)
  | [] => [x]
  | y :: t => if x.1.length ≤ y.1.length then y :: insertDesc x t else x :: y :: t

/-- Stable sort, descending by phrase length. -/
def sortLenDesc (l : List (List Char × List Char)) : List (List Char × List Char) :=
  l.foldl (fun acc p => insertDesc p acc) []

/-- Build one phrase-to-token pair of the catalog. -/
def pat (a b : String) : List Char × List Char := (a.data, b.data)

/-- `FILTER_PATTERNS`, flattened by `Object.values` / `Object.entries` in
insertion order (priority, date, project, label, status, deadline; keys in
literal order inside each category). -/
def allPatterns : List (List Char × List Char) :=
  [ pat "high priority" "p1", pat "urgent tasks" "p1", pat "urgent" "p1",
    pat "important" "p1", pat "priority 1" "p1", pat "p1" "p1",
    pat "medium priority" "p2", pat "normal priority" "p2",
    pat "priority 2" "p2", pat "p2" "p2",
    pat "low priority" "p3", pat "priority 3" "p3", pat "p3" "p3",
    pat "lowest priority" "p4", pat "priority 4" "p4", pat "p4" "p4",
    pat "no priority" "no priority",
    pat "today" "today", pat "due today" "today", pat "scheduled today" "today",
    pat "tomorrow" "tomorrow", pat "due tomorrow" "tomorrow",
    pat "scheduled tomorrow" "tomorrow",
    pat "this week" "7 days", pat "due this week" "7 days",
    pat "next 7 days" "7 days",
    pat "next week" "7 days & before: 14 days",
    pat "due next week" "7 days & before: 14 days",
    pat "overdue" "overdue", pat "past due" "overdue", pat "late" "overdue",
    pat "no date" "no date", pat "no due date" "no date",
    pat "unscheduled" "no date",
    pat "yesterday" "yesterday", pat "due yesterday" "yesterday",
    pat "work project" "#Work", pat "work" "#Work", pat "in work" "#Work",
    pat "personal project" "#Personal", pat "personal" "#Personal",
    pat "in personal" "#Personal",
    pat "inbox" "#Inbox", pat "in inbox" "#Inbox",
    pat "with urgent label" "@urgent",
    pat "waiting tasks" "@waiting_for", pat "waiting for" "@waiting_for",
    pat "blocked" "@waiting_for",
    pat "important tasks" "@important", pat "important" "@important",
    pat "with important label" "@important",
    pat "home tasks" "@home", pat "at home" "@home",
    pat "office tasks" "@office", pat "at office" "@office",
    pat "work location" "@office",
    pat "completed" "completed", pat "done" "completed",
    pat "finished" "completed",
    pat "assigned to me" "assigned by: others", pat "delegated" "assigned by: me",
    pat "shared" "shared",
    pat "has deadline" "!no deadline", pat "with deadline" "!no deadline",
    pat "deadline" "!no deadline",
    pat "no deadline" "!deadline", pat "without deadline" "!deadline",
    pat "deadline today" "deadline: today",
    pat "deadline tomorrow" "deadline: tomorrow",
    pat "deadline this week" "deadline before: next week",
    pat "deadline next week" "deadline after: this week & deadline before: 2 weeks",
    pat "deadline none" "!deadline",
    pat "deadline before" "deadline before:",
    pat "deadline after" "deadline after:",
    pat "deadline on" "deadline:" ]

/-- The catalog sorted longest-phrase-first (stable), as in the source's
`allPatterns.sort((a, b) => b.phrase.length - a.phrase.length)`. -/
def allPatternsSorted : List (List Char × List Char) := sortLenDesc allPatterns

/-- The source's `stopwords` array. -/
def stopwords : List (List Char) :=
  ["and".data, "or".data, "tasks".data, "task".data, "that".data, "are".data,
   "is".data, "with".data, "the".data, "a".data, "an".data, "to".data,
   "for".data, "of".data, "by".data, "in".data, "on".data, "at".data,
   "as".data, "from".data, "mention".data]

/-- Regex `/#\w+/`: a `#` immediately followed by a word character. -/
def hasHashWord : List Char → Bool
  | [] => false
  | [_] => false
  | c :: d :: t => (c == '#' && isWordChar d) || hasHashWord (d :: t)

/-- Regex `/@\w+/`: a `@` immediately followed by a word character. -/
def hasAtWord : List Char → Bool
  | [] => false
  | [_] => false
  | c :: d :: t => (c == '@' && isWordChar d) || hasAtWord (d :: t)

/-- No word character at this boundary position (start of string counts). -/
def nonWordOpt : Option Char → Bool
  | none => true
  | some c => !isWordChar c

/-- No word character right after (end of string counts). -/
def nonWordNext : List Char → Bool
  | [] => true
  | c :: _ => !isWordChar c

/-- Regex `/\bp[1-4]\b/`, scanning with the previous character tracked for
the word boundaries. -/
def hasP14From (prev : Option Char) : List Char → Bool
  | [] => false
  | c :: t =>
    (c == 'p' && nonWordOpt prev &&
      (match t with
       | d :: t2 => ('1' ≤ d && d ≤ '4') && nonWordNext t2
       | [] => false)) || hasP14From (some c) t

/-- Regex `/\bp[1-4]\b/`. -/
def hasP14 (l : List Char) : Bool := hasP14From none l

/-- Regex `/\blit/` for a literal `lit` starting with a word character:
`lit` occurs at a position whose preceding character is not a word
character (or at the start). -/
def hasBoundedLitFrom (lit : List Char) (prev : Option Char) : List Char → Bool
  | [] => false
  | c :: t =>
    (nonWordOpt prev && lit.isPrefixOf (c :: t)) || hasBoundedLitFrom lit (some c) t

/-- Regex `/\blit/` anywhere in the string. -/
def hasBoundedLit (lit : List Char) (l : List Char) : Bool :=
  hasBoundedLitFrom lit none l

/-- The seven `dateOnlyPatterns` keywords. -/
def dateOnlyKws : List (List Char) :=
  ["today".data, "tomorrow".data, "overdue".data, "yesterday".data,
   "no date".data, "no priority".data, "completed".data]

/-- Regexes `/^\s*kw\s*$/`: the whole input, up to surrounding whitespace,
is one of the seven keywords. -/
def isDateOnly (l : List Char) : Bool :=
  dateOnlyKws.any (fun kw => trimJS l == kw)

/-- The `strongTodoistIndicators` check: any of the seven indicator
regexes matches. -/
def hasStrongIndicator (l : List Char) : Bool :=
  hasHashWord l || hasAtWord l || hasP14 l ||
  l.any (fun c => c == '&' || c == '|') ||
  hasBoundedLit "assigned by:".data l ||
  hasBoundedLit "before:".data l ||
  hasBoundedLit "after:".data l

/-- The source's `isAlreadyTodoistSyntax`: any strong indicator, else a
whole-input date keyword. -/
def isAlreadyTodoist (l : List Char) : Bool :=
  hasStrongIndicator l || isDateOnly l

/-- Characters of the regex class `[\w\s,\-\/]` used by the deadline
capture groups. -/
def isDlClassChar (c : Char) : Bool :=
  isWordChar c || isSpaceJS c || c == ',' || c == '-' || c == '/'

/-- Leftmost match of the regex `pre([\w\s,\-\/]+)` (literal prefix then a
greedy capture): returns `(match0, capture)` — the full matched substring
and the captured text. -/
def matchDl (pre : List Char) : List Char → Option (List Char × List Char)
  | [] => none
  | c :: t =>
    if pre.isPrefixOf (c :: t) then
      let cap := ((c :: t).drop pre.length).takeWhile isDlClassChar
      if cap = [] then matchDl pre t
      else some (pre ++ cap, cap)
    else matchDl pre t

/-- The three `deadlineRegexes` rules: the literal prefix of the regex and
the emitted-token prefix (the token is this prefix followed by the trimmed
capture). -/
def dlRules : List (List Char × List Char) :=
  [("deadline before ".data, "deadline before: ".data),
   ("deadline after ".data, "deadline after: ".data),
   ("deadline on ".data, "deadline: ".data)]

/-- The mutable state of one `formatFilter` call: the `foundPatterns`
accumulator and the `workingText` buffer. -/
structure FmtState where
  found : List (List Char)
  working : List Char
deriving DecidableEq, Repr

/-- One iteration of the `deadlineRegexes.forEach` loop: the rule is
matched against `normalized`; on a match the token is pushed and the full
matched substring is removed (first occurrence) from the buffer, which is
then trimmed. -/
def dlStep (normalized : List Char) (st : FmtState) (r : List Char × List Char) :
    FmtState :=
  match matchDl r.1 normalized with
  | none => st
  | some mc =>
    { found := st.found ++ [r.2 ++ trimJS mc.2],
      working := trimJS (replaceFirst st.working mc.1) }

/-- The whole deadline-extraction stage. -/
def deadlineStage (normalized : List Char) (st : FmtState) : FmtState :=
  dlRules.foldl (dlStep normalized) st

/-- One iteration of the `allPatterns.forEach` loop: if the buffer contains
the phrase, push its token and remove the first occurrence of the phrase,
trimming the buffer. -/
def phraseStep (st : FmtState) (p : List Char × List Char) : FmtState :=
  if containsList st.working p.1 then
    { found := st.found ++ [p.2], working := trimJS (replaceFirst st.working p.1) }
  else st

/-- `unmatchedWords`: split the residual buffer on whitespace, drop
stopwords, rejoin with single spaces and trim. -/
def residual (w : List Char) : List Char :=
  trimJS (joinSpace ((wordsOf w).filter (fun t => !(stopwords.contains t))))

/-- Push the residual `search:` token (not double-wrapping an existing
`search:` prefix); nothing is pushed when the residue is empty. -/
def addSearch (found : List (List Char)) (unmatched : List Char) :
    List (List Char) :=
  if unmatched = [] then found
  else if "search:".data.isPrefixOf unmatched then found ++ [unmatched]
  else found ++ ["search: ".data ++ unmatched]

/-- `input.toLowerCase().trim()`. -/
def normalizeJS (l : List Char) : List Char := trimJS (l.map lowerChar)

/-- The full `foundPatterns` list produced from a normalized input that
reaches the pattern-matching path. -/
def foundOf (normalized : List Char) : List (List Char) :=
  addSearch
    (List.foldl phraseStep (deadlineStage normalized ⟨[], normalized⟩)
      allPatternsSorted).found
    (residual
      (List.foldl phraseStep (deadlineStage normalized ⟨[], normalized⟩)
        allPatternsSorted).working)

/-- The source's `formatFilter` (`normalized` is `normalizeJS input` and
`foundPatterns` is `foundOf normalized`). -/
def formatFilter (input : List Char) : List Char :=
  if input = [] then input
  else if isAlreadyTodoist (normalizeJS input) then trimJS input
  else if "search:".data.isPrefixOf (normalizeJS input) then trimJS input
  else if foundOf (normalizeJS input) = [] then "search: ".data ++ trimJS input
  else joinAmp (dedupFirst (foundOf (normalizeJS input)))

/-- The deadline tokens: each of the three rules is matched against the
normalized input itself (not the working buffer), in rule order. -/
def dtoksOf (n : List Char) : List (List Char) :=
  dlRules.filterMap (fun r => (matchDl r.1 n).map (fun mc => r.2 ++ trimJS mc.2))

/-- The working buffer after the deadline stage. -/
def bufAfterDl (n : List Char) : List Char := (deadlineStage n ⟨[], n⟩).working

/-- The generic phrase tokens, produced by scanning the length-sorted
catalog against the post-deadline buffer. -/
def ptoksOf (n : List Char) : List (List Char) :=
  (allPatternsSorted.foldl phraseStep ⟨[], bufAfterDl n⟩).found

/-- The working buffer after the phrase-matching stage. -/
def bufAfterAll (n : List Char) : List Char :=
  (allPatternsSorted.foldl phraseStep ⟨[], bufAfterDl n⟩).working

/-- The residual `search:` token list (empty or a singleton). -/
def stoksOf (n : List Char) : List (List Char) :=
  if residual (bufAfterAll n) = [] then []
  else if "search:".data.isPrefixOf (residual (bufAfterAll n)) then
    [residual (bufAfterAll n)]
  else ["search: ".data ++ residual (bufAfterAll n)]

/-- `formatFilter` on Lean strings. -/
def formatFilterS (s : String) : String := String.mk (formatFilter s.data)

/-- JavaScript `s.trim()` on Lean strings. -/
def trimS (s : String) : String := String.mk (trimJS s.data)

/-- The source's `getFilterExamples` literal catalog. -/
def getFilterExamples : List (String × String) :=
  [ ("urgent tasks due today", "p1 & today"),
    ("high priority work project", "p1 & #Work"),
    ("overdue tasks with no priority", "no priority & overdue"),
    ("personal tasks due this week", "7 days & #Personal"),
    ("waiting tasks in work", "@waiting_for & #Work"),
    ("important tasks due tomorrow", "@important & tomorrow"),
    ("no date low priority", "p3 & no date"),
    ("work urgent", "p1 & #Work"),
    ("tasks with deadline", "!no deadline"),
    ("no deadline", "!deadline"),
    ("deadline before Sept 5 2025", "deadline before: Sept 5 2025"),
    ("deadline after Jan 1 2024", "deadline after: Jan 1 2024"),
    ("deadline on March 10 2025", "deadline: March 10 2025"),
    ("deadline today", "deadline: today"),
    ("deadline this week", "deadline before: next week"),
    ("deadline next week", "deadline after: this week & deadline before: 2 weeks") ]

theorem trimJS_eq_nil_iff (l : List Char) :
    trimJS l = [] ↔ ∀ c ∈ l, isSpaceJS c = true := by
  unfold trimJS
  rw [List.reverse_eq_nil_iff, List.dropWhile_eq_nil_iff]
  constructor
  · intro h c hc
    have hc2 : c ∈ l.takeWhile isSpaceJS ++ l.dropWhile isSpaceJS := by
      rw [List.takeWhile_append_dropWhile]; exact hc
    rcases List.mem_append.1 hc2 with h1 | h2
    · exact List.mem_takeWhile_imp h1
    · exact h c (List.mem_reverse.2 h2)
  · intro h c hc
    exact h c ((List.dropWhile_sublist _).subset (List.mem_reverse.1 hc))

theorem lowerChar_of_space {c : Char} (h : isSpaceJS c = true) : lowerChar c = c := by
  unfold isSpaceJS at h
  simp only [Bool.or_eq_true, beq_iff_eq] at h
  rcases h with ((((h | h) | h) | h) | h) | h <;> subst h <;> decide

theorem map_lower_of_all_space {l : List Char}
    (h : ∀ c ∈ l, isSpaceJS c = true) : l.map lowerChar = l := by
  induction l with
  | nil => rfl
  | cons c t ih =>
    simp only [List.map_cons]
    rw [lowerChar_of_space (h c (List.mem_cons_self c t)),
      ih (fun d hd => h d (List.mem_cons_of_mem _ hd))]

theorem normalizeJS_eq_nil {l : List Char} (h : trimJS l = []) :
    normalizeJS l = [] := by
  unfold normalizeJS
  rw [map_lower_of_all_space ((trimJS_eq_nil_iff l).1 h)]
  exact h

theorem formatFilter_pass {l : List Char} (h0 : l ≠ [])
    (h : isAlreadyTodoist (normalizeJS l) = true) : formatFilter l = trimJS l := by
  unfold formatFilter
  rw [if_neg h0, if_pos h]

theorem formatFilter_searchColon {l : List Char} (h0 : l ≠ [])
    (h1 : isAlreadyTodoist (normalizeJS l) = false)
    (h2 : "search:".data.isPrefixOf (normalizeJS l) = true) :
    formatFilter l = trimJS l := by
  unfold formatFilter
  rw [if_neg h0, if_neg (by simp [h1]), if_pos h2]

theorem formatFilter_assemble {l : List Char} (h0 : l ≠ [])
    (h1 : isAlreadyTodoist (normalizeJS l) = false)
    (h2 : "search:".data.isPrefixOf (normalizeJS l) = false)
    (h3 : foundOf (normalizeJS l) ≠ []) :
    formatFilter l = joinAmp (dedupFirst (foundOf (normalizeJS l))) := by
  unfold formatFilter
  rw [if_neg h0, if_neg (by simp [h1]), if_neg (by simp [h2]), if_neg h3]

theorem dlFold_found (n : List Char) :
    ∀ (rs : List (List Char × List Char)) (st : FmtState),
      (rs.foldl (dlStep n) st).found
        = st.found
          ++ rs.filterMap
            (fun r => (matchDl r.1 n).map (fun mc => r.2 ++ trimJS mc.2)) := by
  intro rs
  induction rs with
  | nil => intro st; simp
  | cons r rs ih =>
    intro st
    simp only [List.foldl_cons]
    cases h : matchDl r.1 n with
    | none =>
      rw [show dlStep n st r = st by simp [dlStep, h]]
      rw [ih st]
      simp [List.filterMap_cons, h]
    | some mc =>
      rw [show dlStep n st r
          = ⟨st.found ++ [r.2 ++ trimJS mc.2], trimJS (replaceFirst st.working mc.1)⟩
        by simp [dlStep, h]]
      rw [ih]
      simp [List.filterMap_cons, h]

theorem phraseFold_split :
    ∀ (ps : List (List Char × List Char)) (f : List (List Char)) (w : List Char),
      ps.foldl phraseStep ⟨f, w⟩
        = ⟨f ++ (ps.foldl phraseStep ⟨[], w⟩).found,
           (ps.foldl phraseStep ⟨[], w⟩).working⟩ := by
  intro ps
  induction ps with
  | nil => intro f w; simp
  | cons p ps ih =>
    intro f w
    simp only [List.foldl_cons]
    by_cases h : containsList w p.1 = true
    · rw [show phraseStep ⟨f, w⟩ p
          = ⟨f ++ [p.2], trimJS (replaceFirst w p.1)⟩ by simp [phraseStep, h],
        show phraseStep ⟨[], w⟩ p
          = ⟨[p.2], trimJS (replaceFirst w p.1)⟩ by simp [phraseStep, h],
        ih (f ++ [p.2]), ih [p.2]]
      simp
    · rw [show phraseStep ⟨f, w⟩ p = ⟨f, w⟩ by simp [phraseStep, h],
        show phraseStep ⟨[], w⟩ p = ⟨[], w⟩ by simp [phraseStep, h]]
      exact ih f w

theorem mem_phraseFold (ps : List (List Char × List Char)) :
    ∀ (w : List Char) (a : List Char),
      a ∈ (ps.foldl phraseStep ⟨[], w⟩).found → a ∈ ps.map Prod.snd := by
  induction ps with
  | nil => intro w a ha; simp at ha
  | cons p ps ih =>
    intro w a ha
    simp only [List.foldl_cons] at ha
    by_cases h : containsList w p.1 = true
    · rw [show phraseStep ⟨[], w⟩ p
          = ⟨[p.2], trimJS (replaceFirst w p.1)⟩ by simp [phraseStep, h],
        phraseFold_split ps [p.2] (trimJS (replaceFirst w p.1))] at ha
      simp only [List.map_cons, List.mem_cons]
      rcases List.mem_append.1 ha with h1 | h2
      · left; simpa using h1
      · right; exact ih _ a h2
    · rw [show phraseStep ⟨[], w⟩ p = ⟨[], w⟩ by simp [phraseStep, h]] at ha
      exact List.mem_cons_of_mem _ (ih w a ha)

theorem deadlineStage_eq (n : List Char) :
    deadlineStage n ⟨[], n⟩ = ⟨dtoksOf n, bufAfterDl n⟩ := by
  have h1 : (deadlineStage n ⟨[], n⟩).found = dtoksOf n := by
    have h := dlFold_found n dlRules ⟨[], n⟩
    unfold deadlineStage dtoksOf
    rw [h]
    simp
  have h2 : (deadlineStage n ⟨[], n⟩).working = bufAfterDl n := rfl
  cases hD : deadlineStage n ⟨[], n⟩ with
  | mk f w =>
    rw [hD] at h1 h2
    simp only at h1 h2
    rw [h1, h2]

theorem found_mk (f : List (List Char)) (w : List Char) :
    (FmtState.mk f w).found = f := rfl

theorem working_mk (f : List (List Char)) (w : List Char) :
    (FmtState.mk f w).working = w := rfl

theorem foundOf_decomp (n : List Char) :
    foundOf n = dtoksOf n ++ ptoksOf n ++ stoksOf n := by
  unfold foundOf stoksOf ptoksOf bufAfterAll
  rw [deadlineStage_eq n,
    phraseFold_split allPatternsSorted (dtoksOf n) (bufAfterDl n),
    found_mk, working_mk]
  unfold addSearch
  by_cases h :
      residual ((allPatternsSorted.foldl phraseStep ⟨[], bufAfterDl n⟩).working) = []
  · rw [if_pos h, if_pos h, List.append_nil]
  · rw [if_neg h, if_neg h]
    by_cases h2 : "search:".data.isPrefixOf
        (residual ((allPatternsSorted.foldl phraseStep ⟨[], bufAfterDl n⟩).working))
        = true
    · rw [if_pos h2, if_pos h2, List.append_assoc]
    · rw [if_neg (by simp [h2]), if_neg (by simp [h2]), List.append_assoc]

theorem dedupFirstAux_sublist (l : List (List Char)) :
    ∀ seen, List.Sublist (dedupFirstAux seen l) l := by
  induction l with
  | nil => intro seen; simp [dedupFirstAux]
  | cons x t ih =>
    intro seen
    rw [dedupFirstAux]
    by_cases h : x ∈ seen
    · rw [if_pos h]
      exact (ih seen).cons x
    · rw [if_neg h]
      exact (ih (x :: seen)).cons₂ x

theorem dedupFirst_sublist (l : List (List Char)) :
    List.Sublist (dedupFirst l) l := dedupFirstAux_sublist l []

theorem mem_dedupFirstAux (l : List (List Char)) (a : List Char) :
    ∀ seen, a ∈ dedupFirstAux seen l ↔ (a ∈ l ∧ a ∉ seen) := by
  induction l with
  | nil => intro seen; simp [dedupFirstAux]
  | cons x t ih =>
    intro seen
    rw [dedupFirstAux]
    by_cases h : x ∈ seen
    · rw [if_pos h, ih seen]
      by_cases hxa : a = x
      · subst hxa; simp [h]
      · simp [hxa]
    · rw [if_neg h]
      by_cases hxa : a = x
      · subst hxa; simp [h]
      · simp only [List.mem_cons, hxa, false_or, ih (x :: seen)]

theorem mem_dedupFirst (l : List (List Char)) (a : List Char) :
    a ∈ dedupFirst l ↔ a ∈ l := by
  unfold dedupFirst
  rw [mem_dedupFirstAux l a []]
  simp

theorem dedupFirstAux_nodup (l : List (List Char)) :
    ∀ seen, (dedupFirstAux seen l).Nodup := by
  induction l with
  | nil => intro seen; simp [dedupFirstAux]
  | cons x t ih =>
    intro seen
    rw [dedupFirstAux]
    by_cases h : x ∈ seen
    · rw [if_pos h]; exact ih seen
    · rw [if_neg h]
      refine List.nodup_cons.2 ⟨?_, ih (x :: seen)⟩
      intro hmem
      exact ((mem_dedupFirstAux t x (x :: seen)).1 hmem).2 (List.mem_cons_self x seen)

theorem dedupFirst_nodup (l : List (List Char)) : (dedupFirst l).Nodup :=
  dedupFirstAux_nodup l []

theorem joinAmp_cons_ne_nil (x : List Char) (t : List (List Char))
    (hx : x ≠ []) : joinAmp (x :: t) ≠ [] := by
  cases t with
  | nil => simpa [joinAmp] using hx
  | cons y s =>
    have hh : joinAmp (x :: y :: s) = x ++ (' ' :: '&' :: ' ' :: joinAmp (y :: s)) := rfl
    rw [hh]
    simp

theorem dtoksOf_ne_nil (n : List Char) : ∀ a ∈ dtoksOf n, a ≠ [] := by
  intro a ha
  unfold dtoksOf at ha
  rcases List.mem_filterMap.1 ha with ⟨r, hr, hmap⟩
  rcases Option.map_eq_some'.1 hmap with ⟨mc, _, hback⟩
  intro hnil
  rw [← hback] at hnil
  have h1 := (List.append_eq_nil.1 hnil).1
  fin_cases hr <;> exact absurd h1 (by decide)

theorem sorted_tok_ne_nil : ∀ a ∈ allPatternsSorted.map Prod.snd, a ≠ [] := by
  decide

theorem mem_foundOf_ne_nil (n : List Char) : ∀ a ∈ foundOf n, a ≠ [] := by
  intro a ha
  rw [foundOf_decomp] at ha
  rcases List.mem_append.1 ha with hl | hs
  · rcases List.mem_append.1 hl with hd | hp
    · exact dtoksOf_ne_nil n a hd
    · exact sorted_tok_ne_nil a (mem_phraseFold allPatternsSorted (bufAfterDl n) a hp)
  · unfold stoksOf at hs
    by_cases h : residual (bufAfterAll n) = []
    · rw [if_pos h] at hs; simp at hs
    · rw [if_neg h] at hs
      by_cases h2 : "search:".data.isPrefixOf (residual (bufAfterAll n)) = true
      · rw [if_pos h2] at hs
        simp only [List.mem_singleton] at hs
        rw [hs]; exact h
      · rw [if_neg (by simp [h2])] at hs
        simp only [List.mem_singleton] at hs
        rw [hs]
        intro hnil
        exact absurd (List.append_eq_nil.1 hnil).1 (by decide)

/-- C7: `formatFilter "network tasks"` returns exactly `"#Work & search: net"`:
the catalog phrase `work` matches as a plain substring inside `network`, its
first occurrence is removed from the buffer, and the leftover `net` (after
the stopword `tasks` is dropped) becomes the residual search token. -/
theorem C7_network_collision :
    formatFilterS "network tasks" = "#Work & search: net" := by decide

/-- C3: the getFilterExamples catalog documents
`formatFilter "deadline before Sept 5 2025" = "deadline before: Sept 5 2025"`,
but the code matches the deadline regex against the lowercased normalized
input, so the emitted capture is lowercased: the actual output is
`"deadline before: sept 5 2025"`, contradicting the example catalog (and the
spec's literal scenario 5). -/
theorem C3_deadline_example_divergence :
    ("deadline before Sept 5 2025", "deadline before: Sept 5 2025")
        ∈ getFilterExamples
    ∧ formatFilterS "deadline before Sept 5 2025" = "deadline before: sept 5 2025"
    ∧ formatFilterS "deadline before Sept 5 2025" ≠ "deadline before: Sept 5 2025" := by
  refine ⟨by decide, by decide, by decide⟩

/-- C9: any input whose lowercased trimmed form starts with `search:` is
returned as the trimmed original, with no extraction applied; and this
prefix is covered by neither detector rule (`search: paint` fails the
detector). -/
theorem C9_search_colon_passthrough :
    (∀ l : List Char, "search:".data.isPrefixOf (normalizeJS l) = true →
      formatFilter l = trimJS l)
    ∧ isAlreadyTodoist (normalizeJS ("search: paint".data)) = false := by
  constructor
  · intro l h
    have hl : l ≠ [] := by
      intro e
      rw [e] at h
      exact absurd h (by decide)
    by_cases hd : isAlreadyTodoist (normalizeJS l) = true
    · exact formatFilter_pass hl hd
    · exact formatFilter_searchColon hl (by simpa using hd) h
  · decide

/-- C9 witness: the pass-through at the concrete input `search: paint`. -/
theorem C9_witness :
    formatFilter ("search: paint".data) = trimJS ("search: paint".data) :=
  C9_search_colon_passthrough.1 ("search: paint".data) (by decide)

/-- C10: a non-empty input of whitespace only produces exactly
`search: ` — the fallback prefix concatenated with the empty trimmed
original input, trailing space included. -/
theorem C10_whitespace_fallback :
    ∀ l : List Char, l ≠ [] → (∀ c ∈ l, isSpaceJS c = true) →
      formatFilter l = "search: ".data := by
  intro l hl hws
  have ht : trimJS l = [] := (trimJS_eq_nil_iff l).2 hws
  have hn : normalizeJS l = [] := normalizeJS_eq_nil ht
  unfold formatFilter
  rw [if_neg hl, hn,
    if_neg (show ¬(isAlreadyTodoist ([] : List Char) = true) by decide),
    if_neg (show ¬("search:".data.isPrefixOf ([] : List Char) = true) by decide),
    if_pos (show foundOf ([] : List Char) = [] by decide), ht,
    List.append_nil]

/-- C10 witness: the whitespace-only input `"   "`. -/
theorem C10_witness : formatFilter ("   ".data) = "search: ".data :=
  C10_whitespace_fallback ("   ".data) (by decide) (by decide)

/-- C1: when the lowercased trimmed input carries a strong syntax indicator
or is wholly one of the seven date/status keywords, `formatFilter` returns
the trimmed input unchanged; and without a strong indicator, an input whose
trimmed form differs from every keyword (e.g. a keyword mixed with other
words) never satisfies the detector. -/
theorem C1_strong_pass_through :
    (∀ x : String,
      (hasStrongIndicator (normalizeJS x.data) = true ∨
       isDateOnly (normalizeJS x.data) = true) →
      formatFilterS x = trimS x)
    ∧ (∀ l : List Char, hasStrongIndicator l = false →
        (∀ kw ∈ dateOnlyKws, trimJS l ≠ kw) → isAlreadyTodoist l = false) := by
  constructor
  · intro x h
    have hdet : isAlreadyTodoist (normalizeJS x.data) = true := by
      unfold isAlreadyTodoist
      rcases h with h | h <;> simp [h]
    have hne : x.data ≠ [] := by
      intro e
      rw [e] at hdet
      exact absurd hdet (by decide)
    show String.mk (formatFilter x.data) = String.mk (trimJS x.data)
    rw [formatFilter_pass hne hdet]
  · intro l h1 h2
    unfold isAlreadyTodoist
    rw [h1, Bool.false_or]
    unfold isDateOnly
    refine List.any_eq_false.2 ?_
    intro kw hkw
    simpa [beq_iff_eq] using h2 kw hkw

/-- C1 witness: pass-through at `#Work & p1` (a `&` operator and `#Work`
and `p1` tokens are strong indicators), and detector rejection of the
keyword-mixed input `today tasks`. -/
theorem C1_witness :
    formatFilterS "#Work & p1" = trimS "#Work & p1"
    ∧ isAlreadyTodoist ("today tasks".data) = false :=
  ⟨C1_strong_pass_through.1 "#Work & p1" (by decide),
   C1_strong_pass_through.2 ("today tasks".data) (by decide) (by decide)⟩

/-- C2: `formatFilter` is total (a plain function on strings); it returns
the empty string on the empty input, a non-empty string on every non-empty
input, and when nothing at all matched it degrades to the `search:`
fallback over the trimmed original input instead of failing. -/
theorem C2_total_nonempty :
    formatFilter [] = []
    ∧ (∀ l : List Char, l ≠ [] → formatFilter l ≠ [])
    ∧ (∀ l : List Char, l ≠ [] →
        isAlreadyTodoist (normalizeJS l) = false →
        "search:".data.isPrefixOf (normalizeJS l) = false →
        foundOf (normalizeJS l) = [] →
        formatFilter l = "search: ".data ++ trimJS l) := by
  refine ⟨rfl, ?_, ?_⟩
  · intro l hl
    unfold formatFilter
    rw [if_neg hl]
    by_cases h1 : isAlreadyTodoist (normalizeJS l) = true
    · rw [if_pos h1]
      intro ht
      rw [normalizeJS_eq_nil ht] at h1
      exact absurd h1 (by decide)
    · rw [if_neg h1]
      by_cases h2 : "search:".data.isPrefixOf (normalizeJS l) = true
      · rw [if_pos h2]
        intro ht
        rw [normalizeJS_eq_nil ht] at h2
        exact absurd h2 (by decide)
      · rw [if_neg h2]
        by_cases h3 : foundOf (normalizeJS l) = []
        · rw [if_pos h3]
          intro hcontr
          exact absurd (List.append_eq_nil.1 hcontr).1 (by decide)
        · rw [if_neg h3]
          rcases List.exists_cons_of_ne_nil h3 with ⟨x, t, hx⟩
          have hxne : x ≠ [] :=
            mem_foundOf_ne_nil (normalizeJS l) x
              (by rw [hx]; exact List.mem_cons_self x t)
          have hd : dedupFirst (x :: t) = x :: dedupFirstAux [x] t := by
            rw [dedupFirst, dedupFirstAux, if_neg (by simp)]
          rw [hx, hd]
          exact joinAmp_cons_ne_nil x _ hxne
  · intro l hl h1 h2 h3
    unfold formatFilter
    rw [if_neg hl, if_neg (by simp [h1]), if_neg (by simp [h2]), if_pos h3]

/-- C2 witness: a non-empty output for `paint`, and the `search:` fallback
for an input made only of stopwords. -/
theorem C2_witness :
    formatFilter ("paint".data) ≠ []
    ∧ formatFilter ("the and".data) = "search: ".data ++ trimJS ("the and".data) :=
  ⟨C2_total_nonempty.2.1 ("paint".data) (by decide),
   C2_total_nonempty.2.2 ("the and".data) (by decide) (by decide) (by decide)
     (by decide)⟩

/-- C5: on the pattern-matching path the output is the ` & `-join of the
accumulated token list deduplicated by exact equality; deduplication keeps
the first occurrence (the result is a duplicate-free sublist of the
accumulated list containing exactly its elements). -/
theorem C5_dedup_first_seen :
    (∀ l : List Char, l ≠ [] →
      isAlreadyTodoist (normalizeJS l) = false →
      "search:".data.isPrefixOf (normalizeJS l) = false →
      foundOf (normalizeJS l) ≠ [] →
      formatFilter l = joinAmp (dedupFirst (foundOf (normalizeJS l))))
    ∧ (∀ fs : List (List Char),
        (dedupFirst fs).Nodup
        ∧ List.Sublist (dedupFirst fs) fs
        ∧ (∀ a : List Char, a ∈ dedupFirst fs ↔ a ∈ fs)) := by
  constructor
  · intro l h0 h1 h2 h3
    exact formatFilter_assemble h0 h1 h2 h3
  · intro fs
    exact ⟨dedupFirst_nodup fs, dedupFirst_sublist fs, fun a => mem_dedupFirst fs a⟩

/-- C5 witness: `urgent urgent tasks` pushes the token `p1` twice and the
output keeps a single copy. -/
theorem C5_witness :
    formatFilter ("urgent urgent tasks".data)
      = joinAmp (dedupFirst (foundOf (normalizeJS ("urgent urgent tasks".data)))) :=
  C5_dedup_first_seen.1 ("urgent urgent tasks".data) (by decide) (by decide)
    (by decide) (by decide)

/-- C4: on the pattern-matching path the joined output follows accumulation
order — deadline tokens (rule order), then phrase tokens, then the residual
search token — deduplicated keeping first occurrences and never re-sorted;
the phrase scan order is the catalog sorted by descending phrase length
with ties kept in catalog iteration order (stability stated as: filtering
either list to any fixed length gives the same sequence). -/
theorem C4_output_ordering :
    (∀ l : List Char, l ≠ [] →
      isAlreadyTodoist (normalizeJS l) = false →
      "search:".data.isPrefixOf (normalizeJS l) = false →
      foundOf (normalizeJS l) ≠ [] →
      formatFilter l
        = joinAmp (dedupFirst
            (dtoksOf (normalizeJS l) ++ ptoksOf (normalizeJS l)
              ++ stoksOf (normalizeJS l))))
    ∧ List.Pairwise (fun a b => b.1.length ≤ a.1.length) allPatternsSorted
    ∧ (∀ m : Nat,
        allPatternsSorted.filter (fun p => p.1.length == m)
          = allPatterns.filter (fun p => p.1.length == m)) := by
  refine ⟨?_, by decide, ?_⟩
  · intro l h0 h1 h2 h3
    rw [formatFilter_assemble h0 h1 h2 h3, foundOf_decomp]
  · intro m
    rcases le_or_lt m 20 with hm | hm
    · interval_cases m <;> decide
    · have hA : ∀ p ∈ allPatternsSorted, p.1.length ≤ 20 := by decide
      have hB : ∀ p ∈ allPatterns, p.1.length ≤ 20 := by decide
      have e1 : allPatternsSorted.filter (fun p => p.1.length == m) = [] := by
        refine List.filter_eq_nil_iff.2 ?_
        intro p hp
        simp only [beq_iff_eq]
        have := hA p hp
        omega
      have e2 : allPatterns.filter (fun p => p.1.length == m) = [] := by
        refine List.filter_eq_nil_iff.2 ?_
        intro p hp
        simp only [beq_iff_eq]
        have := hB p hp
        omega
      rw [e1, e2]

/-- C4 witness: an input producing a deadline token, phrase tokens and a
residual search token at once. -/
theorem C4_witness :
    formatFilter ("deadline before friday! urgent paint".data)
      = joinAmp (dedupFirst
          (dtoksOf (normalizeJS ("deadline before friday! urgent paint".data))
            ++ ptoksOf (normalizeJS ("deadline before friday! urgent paint".data))
            ++ stoksOf (normalizeJS ("deadline before friday! urgent paint".data)))) :=
  C4_output_ordering.1 ("deadline before friday! urgent paint".data)
    (by decide) (by decide) (by decide) (by decide)

theorem reapply_eq_trim (x : String)
    (h : isAlreadyTodoist (normalizeJS ((formatFilterS x).data)) = true ∨
         "search:".data.isPrefixOf (normalizeJS ((formatFilterS x).data)) = true) :
    formatFilterS (formatFilterS x) = trimS (formatFilterS x) := by
  have hne : (formatFilterS x).data ≠ [] := by
    intro e
    rw [e] at h
    rcases h with h | h
    · exact absurd h (by decide)
    · exact absurd h (by decide)
  show String.mk (formatFilter ((formatFilterS x).data)) = _
  by_cases hd : isAlreadyTodoist (normalizeJS ((formatFilterS x).data)) = true
  · rw [formatFilter_pass hne hd]; rfl
  · rcases h with h | h
    · exact absurd h hd
    · rw [formatFilter_searchColon hne (by simpa using hd) h]; rfl

/-- C6 counterexample: for the whitespace-only input `" "` the output is
`"search: "`, whose normalized form starts with `search:`, yet re-applying
`formatFilter` trims it to `"search:"`, so the claimed stability fails. -/
theorem C6_counterexample :
    "search:".data.isPrefixOf (normalizeJS ((formatFilterS " ").data)) = true
    ∧ formatFilterS (formatFilterS " ") ≠ formatFilterS " " := by
  exact ⟨by decide, by decide⟩

/-- C6 (amended): `formatFilter` is not idempotent in general; whenever the
output satisfies the detector or starts with `search:`, re-applying returns
the trimmed output — which is the output itself exactly when that output
carries no surrounding whitespace. -/
theorem C6_conditional_idempotence :
    (formatFilterS (formatFilterS "tasks with deadline")
        ≠ formatFilterS "tasks with deadline")
    ∧ (∀ x : String,
        (isAlreadyTodoist (normalizeJS ((formatFilterS x).data)) = true ∨
         "search:".data.isPrefixOf (normalizeJS ((formatFilterS x).data)) = true) →
        formatFilterS (formatFilterS x) = trimS (formatFilterS x))
    ∧ (∀ x : String,
        (isAlreadyTodoist (normalizeJS ((formatFilterS x).data)) = true ∨
         "search:".data.isPrefixOf (normalizeJS ((formatFilterS x).data)) = true) →
        trimS (formatFilterS x) = formatFilterS x →
        formatFilterS (formatFilterS x) = formatFilterS x) :=
  ⟨by decide, fun x h => reapply_eq_trim x h,
   fun x h ht => (reapply_eq_trim x h).trans ht⟩

/-- C6 witness: a `search:` output that is stable under re-application. -/
theorem C6_witness :
    formatFilterS (formatFilterS "paint") = trimS (formatFilterS "paint") :=
  C6_conditional_idempotence.2.1 "paint" (Or.inr (by decide))

/-- C8: the deadline tokens appended by the deadline stage depend only on
the normalized input and the rule list, never on the working buffer, so all
three rules are attempted independently; an input with two deadline-clause
phrasings in sequence yields two deadline tokens; and a matched clause is
removed whole, leaving neither a generic `deadline before` catalog token
nor a residual search leak. -/
theorem C8_deadline_rule_independence :
    (∀ (n : List Char) (st : FmtState),
      (deadlineStage n st).found = st.found ++ dtoksOf n)
    ∧ formatFilterS "deadline before sept 1 deadline after sept 5"
        = "deadline before: sept 1 deadline after sept 5 & deadline after: sept 5"
    ∧ formatFilterS "deadline before sept 5 2025" = "deadline before: sept 5 2025" := by
  refine ⟨?_, by decide, by decide⟩
  intro n st
  unfold deadlineStage dtoksOf
  exact dlFold_found n dlRules st

end FilterFormatter
